import Mathlib

/-!
# Verification of the `codemod` tree query/mutation engine

Shallow embedding of `src/codemod/codemod.go` (package `codemod` of
`apply_codemod`): the Go AST fragment the engine manipulates, the ancestry
chains (`NodeWithParent`), the statement-level mutation primitives
(`insertAfter`, `insertBefore`, `remove`, `Assignment.Remove`,
`Assignment.Replace`), the scoped query engine (`FunctionCalls`,
`FindMapLiterals`, `SourceFile.Imports`), the import-set operations, the
position-stripping routine `zeroPositionInformation` with its process-global
counter, and the parse/print adapter.

Modelling conventions:
* Go pointers: every statement node and every function declaration carries an
  allocation identifier (`sid` / `fid`).  Go interface equality `stmt == node`
  on two statement pointers is identifier equality (`ptrEq`); two distinct
  allocations with identical field contents are `==`-unequal in Go and get
  distinct identifiers here.
* `reflect.DeepEqual` follows pointers and compares the pointed-to structures
  field by field — addresses are never compared, but position fields
  (`token.Pos`, modelled by the `pos` arguments of identifiers and basic
  literals) are ordinary fields and *are* compared.  It is modelled by
  `deepEq` / `deepEqList`, which ignore the allocation identifiers and
  compare every other field, positions included.
* A Go `panic` (nil-pointer dereference, failed type assertion, explicit
  `panic(...)`) is modelled by an explicit `panicked` outcome.
* Go strings are `List Char` where indexing/slicing matters (`Quote`,
  `Unquote`, import paths), plain `String` where only equality matters.
-/

namespace ApplyCodemod

/-- Go string (byte slice / string) as a list of characters. -/
abbrev GoStr := List Char

/-- The fragment of Go's `go/ast` node universe used by the engine.

Constructors carry exactly the fields the `codemod` package reads or writes:
`file` is `*ast.File` (its declaration list), `importDecl` is a
`*ast.GenDecl` with `Tok == token.IMPORT` (its `Specs`), `varDecl` a
`*ast.GenDecl` with `Tok == token.VAR` (the initializer expressions of its
value specs), `importSpec` an `*ast.ImportSpec` (the quoted `Path.Value`),
`funcDecl` an `*ast.FuncDecl` (allocation id, name, body), `block` an
`*ast.BlockStmt` (its `List`), `exprStmt` / `assignStmt` / `ifStmt` the
statement forms (each with its allocation id), and `ident` / `basicLit` /
`call` / `selector` / `compositeLit` / `mapType` / `keyValue` the expression
forms.  `ident` and `basicLit` carry their `token.Pos` field. -/
inductive Node where
  | file (decls : List Node)
  | importDecl (specs : List Node)
  | varDecl (values : List Node)
  | importSpec (path : GoStr)
  | funcDecl (fid : Nat) (name : String) (body : Node)
  | block (list : List Node)
  | exprStmt (sid : Nat) (x : Node)
  | assignStmt (sid : Nat) (lhs : List Node) (rhs : List Node)
  | ifStmt (sid : Nat) (cond : Node) (body : Node)
  | ident (pos : Nat) (name : String)
  | basicLit (pos : Nat) (value : GoStr)
  | call (fn : Node) (args : List Node)
  | selector (x : Node) (sel : String)
  | compositeLit (typ : Option Node) (elts : List Node)
  | mapType (key : Node) (value : Node)
  | keyValue (key : Node) (value : Node)

/-- The dynamic type of a node, as `reflect.TypeOf` observes it: one Go
struct type per constructor. -/
inductive NodeKind where
  | file | importDecl | varDecl | importSpec | funcDecl | block
  | exprStmt | assignStmt | ifStmt | ident | basicLit | call
  | selector | compositeLit | mapType | keyValue
  deriving DecidableEq, Repr

/-- Model of `reflect.TypeOf` of a node. -/
def kind : Node → NodeKind
  | .file _ => .file
  | .importDecl _ => .importDecl
  | .varDecl _ => .varDecl
  | .importSpec _ => .importSpec
  | .funcDecl _ _ _ => .funcDecl
  | .block _ => .block
  | .exprStmt _ _ => .exprStmt
  | .assignStmt _ _ _ => .assignStmt
  | .ifStmt _ _ _ => .ifStmt
  | .ident _ _ => .ident
  | .basicLit _ _ => .basicLit
  | .call _ _ => .call
  | .selector _ _ => .selector
  | .compositeLit _ _ => .compositeLit
  | .mapType _ _ => .mapType
  | .keyValue _ _ => .keyValue

/-- Go interface equality `a == b` on AST nodes: both operands must have the
same dynamic type and be the same allocation.  Statement nodes and function
declarations are the only nodes the engine compares this way; their
allocation ids stand for the pointer values. -/
def ptrEq : Node → Node → Bool
  | .exprStmt i _, .exprStmt j _ => i == j
  | .assignStmt i _ _, .assignStmt j _ _ => i == j
  | .ifStmt i _ _, .ifStmt j _ _ => i == j
  | .funcDecl i _ _, .funcDecl j _ _ => i == j
  | _, _ => false

mutual

/-- Model of `reflect.DeepEqual` on two node pointers: same dynamic type and deep
field-by-field comparison of the pointed-to structures.  Addresses
(allocation ids) are not compared; position fields are. -/
def deepEq : Node → Node → Bool
  | .file a, .file b => deepEqList a b
  | .importDecl a, .importDecl b => deepEqList a b
  | .varDecl a, .varDecl b => deepEqList a b
  | .importSpec p, .importSpec q => p == q
  | .funcDecl _ n a, .funcDecl _ m b => n == m && deepEq a b
  | .block a, .block b => deepEqList a b
  | .exprStmt _ a, .exprStmt _ b => deepEq a b
  | .assignStmt _ l r, .assignStmt _ l' r' => deepEqList l l' && deepEqList r r'
  | .ifStmt _ c a, .ifStmt _ c' b => deepEq c c' && deepEq a b
  | .ident p n, .ident q m => p == q && n == m
  | .basicLit p v, .basicLit q w => p == q && v == w
  | .call f a, .call g b => deepEq f g && deepEqList a b
  | .selector x s, .selector y t => deepEq x y && s == t
  | .compositeLit (some t) a, .compositeLit (some u) b => deepEq t u && deepEqList a b
  | .compositeLit none a, .compositeLit none b => deepEqList a b
  | .mapType k v, .mapType k' v' => deepEq k k' && deepEq v v'
  | .keyValue k v, .keyValue k' v' => deepEq k k' && deepEq v v'
  | _, _ => false

/-- Model of `reflect.DeepEqual` on two node slices (`[]ast.Expr`, `[]ast.Stmt`):
equal lengths and element-wise deep equality. -/
def deepEqList : List Node → List Node → Bool
  | [], [] => true
  | a :: as_, b :: bs => deepEq a b && deepEqList as_ bs
  | _, _ => false

end

/-- The `Parent` chain of a `codemod.NodeWithParent`: the ancestor nodes of a
located node, nearest first, root last.  The Go value
`NodeWithParent{Parent: p, Node: n}` is modelled by the node `n` together
with such a chain (an empty chain models `Parent == nil`). -/
abbrev Chain := List Node

/-- Model of `NodeWithParent.FindUpstreamNode`: walk the chain upward and return the
first entry whose dynamic type equals the target's, or `none` when the root
is passed without a match. -/
def FindUpstreamNode : Chain → NodeKind → Option Node
  | [], _ => none
  | n :: rest, target => if kind n = target then some n else FindUpstreamNode rest target

/-- Outcome of a statement-level mutation primitive: the Go functions mutate
the found container's statement list in place (`updatedBlock` carries the new
list), return without touching anything (`noChange`), or panic
(`panicked`). -/
inductive MutationResult where
  | noChange
  | updatedBlock (newList : List Node)
  | panicked

/-- The splice loop of `codemod.insertAfter`: emit each statement of the
block and emit the new node right after every statement that is `==` (pointer
equal) to the located node. -/
def spliceAfter (list : List Node) (anchor newNode : Node) : List Node :=
  match list with
  | [] => []
  | stmt :: rest =>
      if ptrEq stmt anchor then stmt :: newNode :: spliceAfter rest anchor newNode
      else stmt :: spliceAfter rest anchor newNode

/-- The splice loop of `codemod.insertBefore`: emit the new node right before
every statement that is `==` (pointer equal) to the located node. -/
def spliceBefore (list : List Node) (anchor newNode : Node) : List Node :=
  match list with
  | [] => []
  | stmt :: rest =>
      if ptrEq stmt anchor then newNode :: stmt :: spliceBefore rest anchor newNode
      else stmt :: spliceBefore rest anchor newNode

/-- Model of `codemod.insertAfter(node, newNode)`.  The source runs
`node.Parent.FindUpstreamNode(&ast.BlockStmt{}).Node.(*ast.BlockStmt)` with
no nil check: a nil `Parent` panics inside the method (nil receiver
dereference), and a missing block ancestor panics on the `.Node` dereference
of the nil result. -/
def insertAfter (node : Node) (parents : Chain) (newNode : Node) : MutationResult :=
  match parents with
  | [] => .panicked
  | _ :: _ =>
    match FindUpstreamNode parents .block with
    | none => .panicked
    | some (.block list) => .updatedBlock (spliceAfter list node newNode)
    | some _ => .panicked

/-- Model of `codemod.insertBefore(node, newNode)`: same ancestor search as
`insertAfter` (same missing nil check), splicing before the anchor. -/
def insertBefore (node : Node) (parents : Chain) (newNode : Node) : MutationResult :=
  match parents with
  | [] => .panicked
  | _ :: _ =>
    match FindUpstreamNode parents .block with
    | none => .panicked
    | some (.block list) => .updatedBlock (spliceBefore list node newNode)
    | some _ => .panicked

/-- The filter loop of `codemod.remove`: keep every statement that is not
`==` (pointer equal) to the located node. -/
def removeLoop (list : List Node) (anchor : Node) : List Node :=
  match list with
  | [] => []
  | stmt :: rest =>
      if ptrEq stmt anchor then removeLoop rest anchor
      else stmt :: removeLoop rest anchor

/-- Model of `codemod.remove(node)`.  Unlike the insert primitives this one checks the
result of `FindUpstreamNode` and returns silently when no block ancestor
exists (a nil `Parent` still panics inside the method call itself). -/
def remove (node : Node) (parents : Chain) : MutationResult :=
  match parents with
  | [] => .panicked
  | _ :: _ =>
    match FindUpstreamNode parents .block with
    | none => .noChange
    | some (.block list) => .updatedBlock (removeLoop list node)
    | some _ => .panicked

/-- Model of `codemod.Assignment.Remove`: find the enclosing `*ast.FuncDecl` (guarded:
no match is a silent no-op) and rebuild its body, dropping every statement
that is `reflect.DeepEqual` to the captured assignment.  The receiver's
`Parent` field is a struct value, so the nil-receiver case of the insert
primitives does not arise here. -/
def assignmentRemove (node : Node) (parents : Chain) : MutationResult :=
  match FindUpstreamNode parents .funcDecl with
  | none => .noChange
  | some (.funcDecl _ _ (.block list)) =>
      .updatedBlock (list.filter (fun stmt => !deepEq stmt node))
  | some _ => .panicked

/-- The scan loop of `codemod.Assignment.Replace`: substitute `newStmt` for
every assignment statement of the body whose `Lhs` and `Rhs` are
`reflect.DeepEqual` to the captured assignment's. -/
def replaceLoop (list : List Node) (anchorLhs anchorRhs : List Node) (newStmt : Node) :
    List Node :=
  match list with
  | [] => []
  | stmt :: rest =>
      match stmt with
      | .assignStmt i lhs rhs =>
          if deepEqList anchorLhs lhs && deepEqList anchorRhs rhs then
            newStmt :: replaceLoop rest anchorLhs anchorRhs newStmt
          else .assignStmt i lhs rhs :: replaceLoop rest anchorLhs anchorRhs newStmt
      | s => s :: replaceLoop rest anchorLhs anchorRhs newStmt

/-- Model of `codemod.Assignment.Replace`: find the enclosing `*ast.FuncDecl`
(guarded: no match is a silent no-op) and run the substitution scan over its
body. -/
def assignmentReplace (anchorLhs anchorRhs : List Node) (parents : Chain)
    (newStmt : Node) : MutationResult :=
  match FindUpstreamNode parents .funcDecl with
  | none => .noChange
  | some (.funcDecl _ _ (.block list)) =>
      .updatedBlock (replaceLoop list anchorLhs anchorRhs newStmt)
  | some _ => .panicked

/-! ## Scoped query engine -/

/-- A `codemod.Scope` value: the `fun` field is a `*ast.FuncDecl`, possibly
nil (the zero value, used for matches seen before any function declaration).
Modelled by the declaration's allocation id. -/
abbrev Scope := Option Nat

/-- The closure state of `SourceFile.FunctionCalls`: the mutable `scope`
variable and the accumulated matches, keyed by the scope current at the
moment each call expression was visited (the Go code groups the pairs into a
`map[Scope][]FunctionCall`; encounter order is kept here). -/
structure FCState where
  scope : Scope
  out : List (Scope × Node)

mutual

/-- One `ast.Inspect` step of `SourceFile.FunctionCalls` fused with the
walk: entering a `*ast.FuncDecl` overwrites `scope` (it is never restored on
leaving the declaration), a `*ast.CallExpr` is recorded under the current
scope, and every node's children are visited left to right with the state
threaded through. -/
def fcNode (s : FCState) : Node → FCState
  | .file decls => fcList s decls
  | .importDecl specs => fcList s specs
  | .varDecl values => fcList s values
  | .importSpec _ => s
  | .funcDecl fid _ body => fcNode { s with scope := some fid } body
  | .block l => fcList s l
  | .exprStmt _ x => fcNode s x
  | .assignStmt _ lhs rhs => fcList (fcList s lhs) rhs
  | .ifStmt _ c b => fcNode (fcNode s c) b
  | .ident _ _ => s
  | .basicLit _ _ => s
  | .call f args =>
      fcList (fcNode { s with out := s.out ++ [(s.scope, .call f args)] } f) args
  | .selector x _ => fcNode s x
  | .compositeLit none elts => fcList s elts
  | .compositeLit (some t) elts => fcList (fcNode s t) elts
  | .mapType k v => fcNode (fcNode s k) v
  | .keyValue k v => fcNode (fcNode s k) v

/-- Extension of `fcNode` threaded through a child list. -/
def fcList (s : FCState) : List Node → FCState
  | [] => s
  | n :: ns => fcList (fcNode s n) ns

end

/-- Model of `SourceFile.FunctionCalls`: run the traversal from the zero state (nil
scope, no matches). -/
def FunctionCalls (file : Node) : List (Scope × Node) :=
  (fcNode ⟨none, []⟩ file).out

mutual

/-- The preorder listing of a tree's nodes — the order in which
`ast.Inspect` visits them. -/
def preorder : Node → List Node
  | .file decls => .file decls :: preorderList decls
  | .importDecl specs => .importDecl specs :: preorderList specs
  | .varDecl values => .varDecl values :: preorderList values
  | .importSpec p => [.importSpec p]
  | .funcDecl fid name body => .funcDecl fid name body :: preorder body
  | .block l => .block l :: preorderList l
  | .exprStmt i x => .exprStmt i x :: preorder x
  | .assignStmt i lhs rhs => .assignStmt i lhs rhs :: (preorderList lhs ++ preorderList rhs)
  | .ifStmt i c b => .ifStmt i c b :: (preorder c ++ preorder b)
  | .ident p n => [.ident p n]
  | .basicLit p v => [.basicLit p v]
  | .call f args => .call f args :: (preorder f ++ preorderList args)
  | .selector x s => .selector x s :: preorder x
  | .compositeLit none elts => .compositeLit none elts :: preorderList elts
  | .compositeLit (some t) elts => .compositeLit (some t) elts :: (preorder t ++ preorderList elts)
  | .mapType k v => .mapType k v :: (preorder k ++ preorder v)
  | .keyValue k v => .keyValue k v :: (preorder k ++ preorder v)

/-- Extension of `preorder` over a forest. -/
def preorderList : List Node → List Node
  | [] => []
  | n :: ns => preorder n ++ preorderList ns

end

/-- Whether a node is a call expression. -/
def isCall : Node → Bool
  | .call _ _ => true
  | _ => false

/-- Declarative description of the scope discipline the traversal actually
implements: scan the preorder node sequence keeping the most recently seen
function declaration, and record each call expression under it. -/
def scanScope : Scope → List Node → List (Scope × Node)
  | _, [] => []
  | _, .funcDecl fid _ _ :: ns => scanScope (some fid) ns
  | sc, .call f args :: ns => (sc, .call f args) :: scanScope sc ns
  | sc, _ :: ns => scanScope sc ns

/-- The scope in effect after scanning a node sequence: the id of the last
function declaration in it, if any. -/
def scopeAfter : Scope → List Node → Scope
  | sc, [] => sc
  | _, .funcDecl fid _ _ :: ns => scopeAfter (some fid) ns
  | sc, _ :: ns => scopeAfter sc ns

mutual

/-- The call expressions of a tree that do not lie inside any function
declaration.  This follows the claim's notion of a "top-level call" (it is
the comparison point for the scope-assignment claim, not a translation of
repository code). -/
def callsOutsideFunctions : Node → List Node
  | .file decls => callsOutsideFunctionsList decls
  | .importDecl specs => callsOutsideFunctionsList specs
  | .varDecl values => callsOutsideFunctionsList values
  | .importSpec _ => []
  | .funcDecl _ _ _ => []
  | .block l => callsOutsideFunctionsList l
  | .exprStmt _ x => callsOutsideFunctions x
  | .assignStmt _ lhs rhs => callsOutsideFunctionsList lhs ++ callsOutsideFunctionsList rhs
  | .ifStmt _ c b => callsOutsideFunctions c ++ callsOutsideFunctions b
  | .ident _ _ => []
  | .basicLit _ _ => []
  | .call f args => .call f args :: (callsOutsideFunctions f ++ callsOutsideFunctionsList args)
  | .selector x _ => callsOutsideFunctions x
  | .compositeLit none elts => callsOutsideFunctionsList elts
  | .compositeLit (some t) elts => callsOutsideFunctions t ++ callsOutsideFunctionsList elts
  | .mapType k v => callsOutsideFunctions k ++ callsOutsideFunctions v
  | .keyValue k v => callsOutsideFunctions k ++ callsOutsideFunctions v

/-- Extension of `callsOutsideFunctions` over a forest. -/
def callsOutsideFunctionsList : List Node → List Node
  | [] => []
  | n :: ns => callsOutsideFunctions n ++ callsOutsideFunctionsList ns

end

/-! ## Import set -/

/-- Outcome of a Go computation that can panic. -/
inductive GoVal (α : Type) where
  | ok (a : α)
  | panicked

/-- Model of `codemod.Unquote`: `s[1 : len(s)-1]` (the in-range case; every caller
passes a quoted literal of length at least 2). -/
def Unquote (s : GoStr) : GoStr := (s.drop 1).dropLast

/-- Model of `codemod.Quote`: `fmt.Sprintf("\x22%s\x22", s)`. -/
def Quote (s : GoStr) : GoStr := '"' :: (s ++ ['"'])

/-- The loop of `Imports.Paths`: each spec is cast to `*ast.ImportSpec`
(panicking on any other spec kind) and its unquoted path emitted. -/
def pathsLoop : List Node → GoVal (List GoStr)
  | [] => .ok []
  | .importSpec v :: rest =>
      match pathsLoop rest with
      | .ok l => .ok (Unquote v :: l)
      | .panicked => .panicked
  | _ :: _ => .panicked

/-- Model of `Imports.Paths`: dereferences the `specs *[]ast.Spec` pointer (panicking
when it is nil) and maps the specs to unquoted paths. -/
def ImportsPaths : Option (List Node) → GoVal (List GoStr)
  | none => .panicked
  | some specs => pathsLoop specs

/-- Model of `Imports.Contains`: linear search over `Paths()`. -/
def ImportsContains (specs : Option (List Node)) (p : GoStr) : GoVal Bool :=
  match ImportsPaths specs with
  | .ok l => .ok (l.contains p)
  | .panicked => .panicked

/-- Model of `Imports.Add`: return early when `Paths()` already holds the path,
otherwise append a fresh `*ast.ImportSpec` with the quoted path.  The result
is the new value of the pointed-to spec list. -/
def ImportsAdd (specs : Option (List Node)) (p : GoStr) : GoVal (List Node) :=
  match specs with
  | none => .panicked
  | some specs =>
      match pathsLoop specs with
      | .panicked => .panicked
      | .ok paths =>
          if p ∈ paths then .ok specs
          else .ok (specs ++ [.importSpec (Quote p)])

/-- The filter loop of `Imports.Remove`: keep every spec whose unquoted path
differs from the target (casting each spec, as the source does). -/
def removeSpecsLoop : List Node → GoStr → GoVal (List Node)
  | [], _ => .ok []
  | .importSpec v :: rest, p =>
      match removeSpecsLoop rest p with
      | .ok l => .ok (if Unquote v = p then l else .importSpec v :: l)
      | .panicked => .panicked
  | _ :: _, _ => .panicked

/-- Model of `Imports.Remove`: dereference the pointer and run the filter loop. -/
def ImportsRemove (specs : Option (List Node)) (p : GoStr) : GoVal (List Node) :=
  match specs with
  | none => .panicked
  | some specs => removeSpecsLoop specs p

/-- Repeated application: `n` successive calls of `Imports.Add` with the same path on the same
(pointed-to) spec list, propagating a panic. -/
def addIter : Nat → List Node → GoStr → GoVal (List Node)
  | 0, specs, _ => .ok specs
  | n + 1, specs, p =>
      match ImportsAdd (some specs) p with
      | .ok specs' => addIter n specs' p
      | .panicked => .panicked

mutual

/-- The `ast.Inspect` pass of `SourceFile.Imports`: whenever a `*ast.GenDecl`
with `Tok == token.IMPORT` is met, remember (a pointer to) its spec list and
prune that subtree; a later import declaration overwrites an earlier one. -/
def impNode (acc : Option (List Node)) : Node → Option (List Node)
  | .importDecl specs => some specs
  | .file decls => impList acc decls
  | .varDecl values => impList acc values
  | .importSpec _ => acc
  | .funcDecl _ _ body => impNode acc body
  | .block l => impList acc l
  | .exprStmt _ x => impNode acc x
  | .assignStmt _ lhs rhs => impList (impList acc lhs) rhs
  | .ifStmt _ c b => impNode (impNode acc c) b
  | .ident _ _ => acc
  | .basicLit _ _ => acc
  | .call f args => impList (impNode acc f) args
  | .selector x _ => impNode acc x
  | .compositeLit none elts => impList acc elts
  | .compositeLit (some t) elts => impList (impNode acc t) elts
  | .mapType k v => impNode (impNode acc k) v
  | .keyValue k v => impNode (impNode acc k) v

/-- Extension of `impNode` threaded through a child list. -/
def impList (acc : Option (List Node)) : List Node → Option (List Node)
  | [] => acc
  | n :: ns => impList (impNode acc n) ns

end

/-- Model of `SourceFile.Imports`: the handle holds the found spec-list pointer, which
stays nil when the file has no import declaration. -/
def SourceFileImports (file : Node) : Option (List Node) :=
  impNode none file

mutual

/-- Whether a tree contains an import declaration. -/
def hasImportDecl : Node → Bool
  | .importDecl _ => true
  | .file decls => hasImportDeclList decls
  | .varDecl values => hasImportDeclList values
  | .importSpec _ => false
  | .funcDecl _ _ body => hasImportDecl body
  | .block l => hasImportDeclList l
  | .exprStmt _ x => hasImportDecl x
  | .assignStmt _ lhs rhs => hasImportDeclList lhs || hasImportDeclList rhs
  | .ifStmt _ c b => hasImportDecl c || hasImportDecl b
  | .ident _ _ => false
  | .basicLit _ _ => false
  | .call f args => hasImportDecl f || hasImportDeclList args
  | .selector x _ => hasImportDecl x
  | .compositeLit none elts => hasImportDeclList elts
  | .compositeLit (some t) elts => hasImportDecl t || hasImportDeclList elts
  | .mapType k v => hasImportDecl k || hasImportDecl v
  | .keyValue k v => hasImportDecl k || hasImportDecl v

/-- Extension of `hasImportDecl` over a forest. -/
def hasImportDeclList : List Node → Bool
  | [] => false
  | n :: ns => hasImportDecl n || hasImportDeclList ns

end

/-! ## Map-literal query -/

/-- The closure state of `SourceFile.FindMapLiterals`. -/
structure FMState where
  scope : Scope
  out : List (Scope × Node)

mutual

/-- One `ast.Inspect` step of `SourceFile.FindMapLiterals` fused with the
walk.  Visiting a composite literal runs the unchecked casts of the source —
`value.Type.(*ast.MapType)`, then `.Key.(*ast.Ident)` and
`.Value.(*ast.Ident)` — so any composite literal whose type is not an
identifier-keyed/valued map type (struct literals, untyped nested literals,
map types with composite key or value types) panics.  The filter's parsed
key/value identifier names are `kf` and `vf`.  (The type subtree of a
well-shaped map literal holds only identifier leaves, which no switch case
matches, so the walk into it is elided.) -/
def fmNode (kf vf : String) (s : FMState) : Node → GoVal FMState
  | .file decls => fmList kf vf s decls
  | .importDecl specs => fmList kf vf s specs
  | .varDecl values => fmList kf vf s values
  | .importSpec _ => .ok s
  | .funcDecl fid _ body => fmNode kf vf { s with scope := some fid } body
  | .block l => fmList kf vf s l
  | .exprStmt _ x => fmNode kf vf s x
  | .assignStmt _ lhs rhs =>
      match fmList kf vf s lhs with
      | .ok s' => fmList kf vf s' rhs
      | .panicked => .panicked
  | .ifStmt _ c b =>
      match fmNode kf vf s c with
      | .ok s' => fmNode kf vf s' b
      | .panicked => .panicked
  | .ident _ _ => .ok s
  | .basicLit _ _ => .ok s
  | .call f args =>
      match fmNode kf vf s f with
      | .ok s' => fmList kf vf s' args
      | .panicked => .panicked
  | .selector x _ => fmNode kf vf s x
  | .compositeLit none _ => .panicked
  | .compositeLit (some t) elts =>
      match t with
      | .mapType (.ident kp kn) (.ident vp vn) =>
          let s' :=
            if kn = kf ∧ vn = vf then
              { s with out := s.out ++
                  [(s.scope, .compositeLit (some (.mapType (.ident kp kn) (.ident vp vn))) elts)] }
            else s
          fmList kf vf s' elts
      | _ => .panicked
  | .mapType k v =>
      match fmNode kf vf s k with
      | .ok s' => fmNode kf vf s' v
      | .panicked => .panicked
  | .keyValue k v =>
      match fmNode kf vf s k with
      | .ok s' => fmNode kf vf s' v
      | .panicked => .panicked

/-- Extension of `fmNode` threaded through a child list, propagating a panic. -/
def fmList (kf vf : String) (s : FMState) : List Node → GoVal FMState
  | [] => .ok s
  | n :: ns =>
      match fmNode kf vf s n with
      | .ok s' => fmList kf vf s' ns
      | .panicked => .panicked

end

/-- Model of `SourceFile.FindMapLiterals` for a filter that parses to
`map[kf]vf`: run the traversal from the zero state and return the grouped
matches (in encounter order, as scope/literal pairs). -/
def FindMapLiterals (kf vf : String) (file : Node) : GoVal (List (Scope × Node)) :=
  match fmNode kf vf ⟨none, []⟩ file with
  | .ok s => .ok s.out
  | .panicked => .panicked

mutual

/-- Whether every composite literal in the tree has an identifier-keyed and
identifier-valued map type — the shapes `FindMapLiterals` survives. -/
def compositesOk : Node → Bool
  | .file decls => compositesOkList decls
  | .importDecl specs => compositesOkList specs
  | .varDecl values => compositesOkList values
  | .importSpec _ => true
  | .funcDecl _ _ body => compositesOk body
  | .block l => compositesOkList l
  | .exprStmt _ x => compositesOk x
  | .assignStmt _ lhs rhs => compositesOkList lhs && compositesOkList rhs
  | .ifStmt _ c b => compositesOk c && compositesOk b
  | .ident _ _ => true
  | .basicLit _ _ => true
  | .call f args => compositesOk f && compositesOkList args
  | .selector x _ => compositesOk x
  | .compositeLit none _ => false
  | .compositeLit (some t) elts =>
      match t with
      | .mapType (.ident _ _) (.ident _ _) => compositesOkList elts
      | _ => false
  | .mapType k v => compositesOk k && compositesOk v
  | .keyValue k v => compositesOk k && compositesOk v

/-- Extension of `compositesOk` over a forest. -/
def compositesOkList : List Node → Bool
  | [] => true
  | n :: ns => compositesOk n && compositesOkList ns

end

mutual

/-- Whether no composite literal in the tree matches the filter names. -/
def noMapMatch (kf vf : String) : Node → Bool
  | .file decls => noMapMatchList kf vf decls
  | .importDecl specs => noMapMatchList kf vf specs
  | .varDecl values => noMapMatchList kf vf values
  | .importSpec _ => true
  | .funcDecl _ _ body => noMapMatch kf vf body
  | .block l => noMapMatchList kf vf l
  | .exprStmt _ x => noMapMatch kf vf x
  | .assignStmt _ lhs rhs => noMapMatchList kf vf lhs && noMapMatchList kf vf rhs
  | .ifStmt _ c b => noMapMatch kf vf c && noMapMatch kf vf b
  | .ident _ _ => true
  | .basicLit _ _ => true
  | .call f args => noMapMatch kf vf f && noMapMatchList kf vf args
  | .selector x _ => noMapMatch kf vf x
  | .compositeLit none elts => noMapMatchList kf vf elts
  | .compositeLit (some t) elts =>
      match t with
      | .mapType (.ident _ kn) (.ident _ vn) =>
          !(kn = kf ∧ vn = vf : Bool) && noMapMatchList kf vf elts
      | _ => noMapMatchList kf vf elts
  | .mapType k v => noMapMatch kf vf k && noMapMatch kf vf v
  | .keyValue k v => noMapMatch kf vf k && noMapMatch kf vf v

/-- Extension of `noMapMatch` over a forest. -/
def noMapMatchList (kf vf : String) : List Node → Bool
  | [] => true
  | n :: ns => noMapMatch kf vf n && noMapMatchList kf vf ns

end

/-! ## Position stripping (`zeroPositionInformation`) -/

/-- The universe of `reflect.Value`s that `zeroPositionInformation` walks:
`token.Pos` fields (type name `"Pos"`, integer kind), other scalars, structs,
pointers/interfaces and slices. -/
inductive RVal where
  | pos (n : Nat)
  | intVal (n : Nat)
  | strVal (s : String)
  | structV (fields : List RVal)
  | ptrV (v : Option RVal)
  | sliceV (elems : List RVal)

mutual

/-- Model of `reflect.Value.IsZero`: zero scalar, nil pointer, struct of zero fields.
A slice value here stands for a non-nil slice. -/
def isZero : RVal → Bool
  | .pos n => n == 0
  | .intVal n => n == 0
  | .strVal s => s == ""
  | .structV fields => isZeroList fields
  | .ptrV v => v.isNone
  | .sliceV _ => false

/-- Extension of `IsZero` over a field list. -/
def isZeroList : List RVal → Bool
  | [] => true
  | v :: vs => isZero v && isZeroList vs

end

mutual

/-- Model of `codemod.zeroPositionInformation`, with the process-global counter
`var x int = 1` made explicit: skip invalid/zero values, stop outright once
the counter exceeds 1000 (the committed workaround for a recursion bug),
otherwise bump the counter, zero the value if its type is `Pos`, and recurse
into pointees, struct fields and slice elements.  Returns the new counter
and the (possibly rewritten) value. -/
def zeroPositionInformation (x : Nat) (v : RVal) : Nat × RVal :=
  if isZero v then (x, v)
  else if x > 1000 then (x, v)
  else
    match v with
    | .pos _ => (x + 1, .pos 0)
    | .intVal n => (x + 1, .intVal n)
    | .strVal s => (x + 1, .strVal s)
    | .structV fields =>
        let r := zeroPositionInformationList (x + 1) fields
        (r.1, .structV r.2)
    | .ptrV none => (x + 1, .ptrV none)
    | .ptrV (some inner) =>
        let r := zeroPositionInformation (x + 1) inner
        (r.1, .ptrV (some r.2))
    | .sliceV elems =>
        let r := zeroPositionInformationList (x + 1) elems
        (r.1, .sliceV r.2)

/-- The struct-field / slice-element loop of `zeroPositionInformation`,
threading the global counter. -/
def zeroPositionInformationList (x : Nat) : List RVal → Nat × List RVal
  | [] => (x, [])
  | v :: vs =>
      let r := zeroPositionInformation x v
      let r2 := zeroPositionInformationList r.1 vs
      (r2.1, r.2 :: r2.2)

end

mutual

/-- Every reachable `Pos` value is zero: what a complete strip guarantees. -/
def posFree : RVal → Bool
  | .pos n => n == 0
  | .intVal _ => true
  | .strVal _ => true
  | .structV fields => posFreeList fields
  | .ptrV none => true
  | .ptrV (some v) => posFree v
  | .sliceV elems => posFreeList elems

/-- Extension of `posFree` over a list. -/
def posFreeList : List RVal → Bool
  | [] => true
  | v :: vs => posFree v && posFreeList vs

end

mutual

/-- The number of values a full walk would visit: each value costs one
counter tick when processed. -/
def rsize : RVal → Nat
  | .pos _ => 1
  | .intVal _ => 1
  | .strVal _ => 1
  | .structV fields => 1 + rsizeList fields
  | .ptrV none => 1
  | .ptrV (some v) => 1 + rsize v
  | .sliceV elems => 1 + rsizeList elems

/-- Extension of `rsize` summed over a list. -/
def rsizeList : List RVal → Nat
  | [] => 0
  | v :: vs => rsize v + rsizeList vs

end

mutual

/-- The `reflect.ValueOf` view of an AST node, as `Ast` hands it to
`zeroPositionInformation`: every node is a pointer to a struct whose fields
appear in declaration order; node lists are slices; position fields are
`Pos`-typed values; names and literal values are strings (a `GoStr` value is
rendered to a `String` here). -/
def toRVal : Node → RVal
  | .file decls => .ptrV (some (.structV [.sliceV (toRValList decls)]))
  | .importDecl specs => .ptrV (some (.structV [.sliceV (toRValList specs)]))
  | .varDecl values => .ptrV (some (.structV [.sliceV (toRValList values)]))
  | .importSpec p => .ptrV (some (.structV [.strVal (String.mk p)]))
  | .funcDecl _ name body => .ptrV (some (.structV [.strVal name, toRVal body]))
  | .block l => .ptrV (some (.structV [.sliceV (toRValList l)]))
  | .exprStmt _ x => .ptrV (some (.structV [toRVal x]))
  | .assignStmt _ lhs rhs =>
      .ptrV (some (.structV [.sliceV (toRValList lhs), .sliceV (toRValList rhs)]))
  | .ifStmt _ c b => .ptrV (some (.structV [toRVal c, toRVal b]))
  | .ident p n => .ptrV (some (.structV [.pos p, .strVal n]))
  | .basicLit p v => .ptrV (some (.structV [.pos p, .strVal (String.mk v)]))
  | .call f args => .ptrV (some (.structV [toRVal f, .sliceV (toRValList args)]))
  | .selector x s => .ptrV (some (.structV [toRVal x, .strVal s]))
  | .compositeLit none elts => .ptrV (some (.structV [.ptrV none, .sliceV (toRValList elts)]))
  | .compositeLit (some t) elts => .ptrV (some (.structV [toRVal t, .sliceV (toRValList elts)]))
  | .mapType k v => .ptrV (some (.structV [toRVal k, toRVal v]))
  | .keyValue k v => .ptrV (some (.structV [toRVal k, toRVal v]))

/-- Extension of `toRVal` over a node list. -/
def toRValList : List Node → List RVal
  | [] => []
  | n :: ns => toRVal n :: toRValList ns

end

/-! ## Parser/printer adapter -/

/-- Collapse every run of consecutive spaces to a single space: the
whitespace normalization of the canonical formatter. -/
def collapse : List Char → List Char
  | [] => []
  | [c] => [c]
  | c :: c' :: rest =>
      if c = ' ' ∧ c' = ' ' then collapse (c' :: rest)
      else c :: collapse (c' :: rest)

/-- No two consecutive spaces: canonical-form invariant. -/
def noDoubleSpace : List Char → Bool
  | c :: c' :: rest => !(c = ' ' ∧ c' = ' ' : Bool) && noDoubleSpace (c' :: rest)
  | _ => true

/-- Modelled from the spec: the external parser wrapped by `codemod.New`
(`go/parser.ParseFile`, not part of this repository).  Per §4.1 it fails
exactly when the text is not syntactically valid in the target grammar,
e.g. when the top-level package clause is missing; a successful parse
produces the full tree, here represented by the token stream in canonical
whitespace form (the printer's formatting table). -/
def parseAdapter (text : List Char) : Except Unit (List Char) :=
  if List.isPrefixOf "package ".data (collapse text) then .ok (collapse text)
  else .error ()

/-- Modelled from the spec: the external printer wrapped by
`SourceFile.SourceCode` (`go/format.Node`, not part of this repository): a
deterministic, side-effect-free rendering of the tree in the formatter's
canonical style. -/
def printAdapter (tree : List Char) : List Char := tree

/-- Model of `codemod.New(input)`: parse the source text and panic —
`panic(errors.WithStack(err))` — when the parser reports an error; on
success wrap the full tree in a `SourceFile`. -/
def New (text : List Char) : GoVal (List Char) :=
  match parseAdapter text with
  | .error _ => .panicked
  | .ok tree => .ok tree

/-! ## Concrete example trees and fragments -/

/-- A call statement located under a top-level `var` declaration: its
ancestry chain contains no block statement and no function declaration. -/
def exNoBlockChain : Chain :=
  [.varDecl [.call (.ident 3 "g") []], .file [.varDecl [.call (.ident 3 "g") []]]]

/-- The located node for the C1 counterexample. -/
def exAnchor : Node := .exprStmt 1 (.call (.ident 2 "f") [])

/-- The fragment being spliced in for the C1 counterexample. -/
def exNewStmt : Node := .assignStmt 9 [.ident 4 "x"] [.basicLit 5 ['1']]

/-- Two statement allocations with identical contents (e.g. the same `Ast`
fragment inserted twice, all positions zeroed): deeply equal, pointer
distinct. -/
def exDupA : Node := .exprStmt 1 (.call (.selector (.ident 0 "somepackage") "Foo") [])

/-- Second allocation of the same call statement. -/
def exDupB : Node := .exprStmt 2 (.call (.selector (.ident 0 "somepackage") "Foo") [])

/-- Two textually identical assignments `x := 1` as they come out of one
parse: distinct allocations and distinct source positions. -/
def exAsgA : Node := .assignStmt 3 [.ident 10 "x"] [.basicLit 12 ['1']]

/-- The second `x := 1`, three lines further down. -/
def exAsgB : Node := .assignStmt 4 [.ident 20 "x"] [.basicLit 22 ['1']]

/-- Replacement statement used in the C4 witness. -/
def exReplacementStmt : Node := .exprStmt 99 (.call (.ident 98 "replacement") [])

/-- A syntactically invalid source text: no top-level package clause. -/
def exInvalidSource : GoStr := "func f() \x7b\x7d".data

/-- A syntactically valid source text. -/
def exValidSource : GoStr := "package main".data

/-- One existing import spec, `"errors"`. -/
def exSpecs : List Node := [.importSpec (Quote ("errors".data))]

/-- A file with a function but no import declaration. -/
def exNoImportFile : Node := .file [.funcDecl 1 "main" (.block [])]

/-- A call expression `g()` occurring at the top level (inside a `var`
initializer), after a function declaration. -/
def exTopCall : Node := .call (.ident 30 "g") []

/-- A file declaring `func f() \x7b\x7d` followed by `var x = g()`. -/
def exC3File : Node := .file [.funcDecl 1 "f" (.block []), .varDecl [exTopCall]]

/-- A struct literal `Foo\x7b\x7d`: a composite literal whose type is not a
map type. -/
def exStructLit : Node := .compositeLit (some (.ident 40 "Foo")) []

/-- A file assigning a struct literal inside `main`. -/
def exC8File : Node :=
  .file [.funcDecl 1 "main" (.block [.assignStmt 2 [.ident 41 "c"] [exStructLit]])]

/-- A `map[string]int` literal: well-shaped but not matching a
`map[string]string` filter. -/
def exMapLit : Node := .compositeLit (some (.mapType (.ident 50 "string") (.ident 51 "int"))) []

/-- A file assigning the non-matching map literal inside `main`. -/
def exC8OkFile : Node :=
  .file [.funcDecl 1 "main" (.block [.assignStmt 2 [.ident 52 "m"] [exMapLit]])]

/-- The fragment `x := 1` as `Ast` returns it: synthetic, nonzero position
fields on the identifier and the literal. -/
def exFragmentStmt : Node := .assignStmt 0 [.ident 5 "x"] [.basicLit 7 ['1']]

/-! ## Helper lemmas -/

theorem findUpstreamNode_none (chain : Chain) (k : NodeKind)
    (h : ∀ n ∈ chain, kind n ≠ k) : FindUpstreamNode chain k = none := by
  induction chain with
  | nil => rfl
  | cons c cs ih =>
      simp only [FindUpstreamNode]
      rw [if_neg (h c (List.mem_cons_self c cs))]
      exact ih fun n hn => h n (List.mem_cons_of_mem c hn)

theorem findUpstreamNode_first (pre post : Chain) (b : Node) (k : NodeKind)
    (hpre : ∀ n ∈ pre, kind n ≠ k) (hb : kind b = k) :
    FindUpstreamNode (pre ++ b :: post) k = some b := by
  induction pre with
  | nil => simp [FindUpstreamNode, hb]
  | cons c cs ih =>
      simp only [List.cons_append, FindUpstreamNode]
      rw [if_neg (hpre c (List.mem_cons_self c cs))]
      exact ih fun n hn => hpre n (List.mem_cons_of_mem c hn)

theorem removeLoop_eq_filter (l : List Node) (anchor : Node) :
    removeLoop l anchor = l.filter (fun s => !ptrEq s anchor) := by
  induction l with
  | nil => rfl
  | cons s rest ih =>
      simp only [removeLoop, List.filter_cons]
      cases h : ptrEq s anchor <;> simp [h, ih]

theorem spliceAfter_no_match (l : List Node) (anchor newNode : Node)
    (h : ∀ s ∈ l, ptrEq s anchor = false) :
    spliceAfter l anchor newNode = l := by
  induction l with
  | nil => rfl
  | cons s rest ih =>
      simp only [spliceAfter]
      rw [if_neg (by simp [h s (List.mem_cons_self s rest)])]
      rw [ih fun n hn => h n (List.mem_cons_of_mem s hn)]

theorem spliceBefore_no_match (l : List Node) (anchor newNode : Node)
    (h : ∀ s ∈ l, ptrEq s anchor = false) :
    spliceBefore l anchor newNode = l := by
  induction l with
  | nil => rfl
  | cons s rest ih =>
      simp only [spliceBefore]
      rw [if_neg (by simp [h s (List.mem_cons_self s rest)])]
      rw [ih fun n hn => h n (List.mem_cons_of_mem s hn)]

theorem spliceAfter_once (l₁ l₂ : List Node) (anchor newNode : Node)
    (h₁ : ∀ s ∈ l₁, ptrEq s anchor = false) (h₂ : ∀ s ∈ l₂, ptrEq s anchor = false)
    (ha : ptrEq anchor anchor = true) :
    spliceAfter (l₁ ++ anchor :: l₂) anchor newNode = l₁ ++ anchor :: newNode :: l₂ := by
  induction l₁ with
  | nil =>
      simp only [List.nil_append, spliceAfter]
      rw [if_pos ha, spliceAfter_no_match l₂ anchor newNode h₂]
  | cons s rest ih =>
      simp only [List.cons_append, spliceAfter, List.append_eq]
      rw [if_neg (by simp [h₁ s (List.mem_cons_self s rest)])]
      rw [ih fun n hn => h₁ n (List.mem_cons_of_mem s hn)]

theorem spliceBefore_once (l₁ l₂ : List Node) (anchor newNode : Node)
    (h₁ : ∀ s ∈ l₁, ptrEq s anchor = false) (h₂ : ∀ s ∈ l₂, ptrEq s anchor = false)
    (ha : ptrEq anchor anchor = true) :
    spliceBefore (l₁ ++ anchor :: l₂) anchor newNode = l₁ ++ newNode :: anchor :: l₂ := by
  induction l₁ with
  | nil =>
      simp only [List.nil_append, spliceBefore]
      rw [if_pos ha, spliceBefore_no_match l₂ anchor newNode h₂]
  | cons s rest ih =>
      simp only [List.cons_append, spliceBefore, List.append_eq]
      rw [if_neg (by simp [h₁ s (List.mem_cons_self s rest)])]
      rw [ih fun n hn => h₁ n (List.mem_cons_of_mem s hn)]

/-! ## C1: behavior when no statement-list ancestor exists -/

/-- C1 counterexample: on a located node with no enclosing block statement,
`insertAfter`/`insertBefore` do not silently no-op — they dereference the nil
result of `FindUpstreamNode` and panic, contradicting the claim that all four
mutation primitives are silent no-ops in this situation. -/
theorem C1_counterexample_insert_panics :
    insertAfter exAnchor exNoBlockChain exNewStmt = .panicked ∧
    insertBefore exAnchor exNoBlockChain exNewStmt = .panicked :=
  ⟨rfl, rfl⟩

/-- C1 (amended): on an ancestry chain with no statement-list container (and
no function declaration), `remove`, `Assignment.Remove` and
`Assignment.Replace` are silent no-ops, while `insertAfter` and
`insertBefore` panic on the unchecked nil dereference. -/
theorem C1_no_block_ancestor_behavior (anchor newNode : Node) (chain : Chain)
    (anchorLhs anchorRhs : List Node)
    (hne : chain ≠ [])
    (hb : ∀ n ∈ chain, kind n ≠ .block)
    (hf : ∀ n ∈ chain, kind n ≠ .funcDecl) :
    remove anchor chain = .noChange ∧
    assignmentRemove anchor chain = .noChange ∧
    assignmentReplace anchorLhs anchorRhs chain newNode = .noChange ∧
    insertAfter anchor chain newNode = .panicked ∧
    insertBefore anchor chain newNode = .panicked := by
  obtain ⟨c, cs, rfl⟩ : ∃ c cs, chain = c :: cs := by
    cases chain with
    | nil => exact absurd rfl hne
    | cons c cs => exact ⟨c, cs, rfl⟩
  refine ⟨?_, ?_, ?_, ?_, ?_⟩ <;>
    simp [remove, assignmentRemove, assignmentReplace, insertAfter, insertBefore,
      findUpstreamNode_none _ _ hb, findUpstreamNode_none _ _ hf]

/-- Witness for `C1_no_block_ancestor_behavior` at a concrete chain. -/
theorem C1_no_block_ancestor_behavior_witness :
    remove exAnchor exNoBlockChain = .noChange ∧
    assignmentRemove exAnchor exNoBlockChain = .noChange ∧
    assignmentReplace [.ident 4 "x"] [.basicLit 5 ['1']] exNoBlockChain exNewStmt = .noChange ∧
    insertAfter exAnchor exNoBlockChain exNewStmt = .panicked ∧
    insertBefore exAnchor exNoBlockChain exNewStmt = .panicked :=
  C1_no_block_ancestor_behavior exAnchor exNewStmt exNoBlockChain
    [.ident 4 "x"] [.basicLit 5 ['1']]
    (by simp [exNoBlockChain]) (by decide) (by decide)

/-! ## C7: insertion ordering -/

/-- C7: when the nearest enclosing block's list contains the anchor exactly
once (by pointer identity), `insertAfter` places the new statement
immediately after the anchor and `insertBefore` immediately before it, and
every other statement passes through unchanged in its original order. -/
theorem C7_insert_preserves_order (pre post : Chain) (l₁ l₂ : List Node)
    (anchor newNode : Node)
    (hpre : ∀ n ∈ pre, kind n ≠ .block)
    (h₁ : ∀ s ∈ l₁, ptrEq s anchor = false)
    (h₂ : ∀ s ∈ l₂, ptrEq s anchor = false)
    (ha : ptrEq anchor anchor = true) :
    insertAfter anchor (pre ++ .block (l₁ ++ anchor :: l₂) :: post) newNode
      = .updatedBlock (l₁ ++ anchor :: newNode :: l₂) ∧
    insertBefore anchor (pre ++ .block (l₁ ++ anchor :: l₂) :: post) newNode
      = .updatedBlock (l₁ ++ newNode :: anchor :: l₂) := by
  have hfind : FindUpstreamNode (pre ++ .block (l₁ ++ anchor :: l₂) :: post) .block
      = some (.block (l₁ ++ anchor :: l₂)) :=
    findUpstreamNode_first pre post _ .block hpre rfl
  obtain ⟨c, cs, hcc⟩ : ∃ c cs, pre ++ Node.block (l₁ ++ anchor :: l₂) :: post = c :: cs := by
    cases pre with
    | nil => exact ⟨_, _, rfl⟩
    | cons x xs => exact ⟨_, _, rfl⟩
  rw [hcc] at hfind
  constructor
  · rw [hcc]
    simp only [insertAfter, hfind]
    rw [spliceAfter_once l₁ l₂ anchor newNode h₁ h₂ ha]
  · rw [hcc]
    simp only [insertBefore, hfind]
    rw [spliceBefore_once l₁ l₂ anchor newNode h₁ h₂ ha]

/-- Witness for `C7_insert_preserves_order`: a `main` body
`x := 1; f(); y := 2` with the call statement as anchor. -/
theorem C7_insert_preserves_order_witness :
    insertAfter (.exprStmt 2 (.call (.ident 21 "f") []))
      ([.block [.assignStmt 1 [.ident 10 "x"] [.basicLit 11 ['1']],
                .exprStmt 2 (.call (.ident 21 "f") []),
                .assignStmt 3 [.ident 30 "y"] [.basicLit 31 ['2']]],
        .funcDecl 7 "main" (.block [])])
      (.exprStmt 9 (.call (.ident 90 "h") []))
      = .updatedBlock [.assignStmt 1 [.ident 10 "x"] [.basicLit 11 ['1']],
                       .exprStmt 2 (.call (.ident 21 "f") []),
                       .exprStmt 9 (.call (.ident 90 "h") []),
                       .assignStmt 3 [.ident 30 "y"] [.basicLit 31 ['2']]] ∧
    insertBefore (.exprStmt 2 (.call (.ident 21 "f") []))
      ([.block [.assignStmt 1 [.ident 10 "x"] [.basicLit 11 ['1']],
                .exprStmt 2 (.call (.ident 21 "f") []),
                .assignStmt 3 [.ident 30 "y"] [.basicLit 31 ['2']]],
        .funcDecl 7 "main" (.block [])])
      (.exprStmt 9 (.call (.ident 90 "h") []))
      = .updatedBlock [.assignStmt 1 [.ident 10 "x"] [.basicLit 11 ['1']],
                       .exprStmt 9 (.call (.ident 90 "h") []),
                       .exprStmt 2 (.call (.ident 21 "f") []),
                       .assignStmt 3 [.ident 30 "y"] [.basicLit 31 ['2']]] :=
  C7_insert_preserves_order []
    [.funcDecl 7 "main" (.block [])]
    [.assignStmt 1 [.ident 10 "x"] [.basicLit 11 ['1']]]
    [.assignStmt 3 [.ident 30 "y"] [.basicLit 31 ['2']]]
    (.exprStmt 2 (.call (.ident 21 "f") []))
    (.exprStmt 9 (.call (.ident 90 "h") []))
    (by simp) (by decide) (by decide) (by decide)

/-! ## C4: how Remove/Replace select their targets -/

theorem replaceLoop_eq_map (l : List Node) (aLhs aRhs : List Node) (newStmt : Node) :
    replaceLoop l aLhs aRhs newStmt = l.map (fun s =>
      match s with
      | .assignStmt i lhs rhs =>
          if deepEqList aLhs lhs && deepEqList aRhs rhs then newStmt
          else .assignStmt i lhs rhs
      | s => s) := by
  induction l with
  | nil => rfl
  | cons s rest ih =>
      (cases s <;> simp [replaceLoop, ih]); (try (split <;> rfl))

/-- C4 counterexample: `remove` selects by pointer identity, not deep
structural equality — `exDupB` is deeply equal to the captured `exDupA` yet
survives its removal; and `Assignment.Remove`'s `reflect.DeepEqual` compares
position fields, so the textually identical `exAsgB` survives the removal of
`exAsgA`.  In neither case is "every structurally identical statement"
affected. -/
theorem C4_counterexample_matching :
    deepEq exDupB exDupA = true ∧
    ptrEq exDupB exDupA = false ∧
    remove exDupA [.block [exDupA, exDupB], .funcDecl 7 "main" (.block [exDupA, exDupB])]
      = .updatedBlock [exDupB] ∧
    assignmentRemove exAsgA [.block [exAsgA, exAsgB], .funcDecl 8 "main" (.block [exAsgA, exAsgB])]
      = .updatedBlock [exAsgB] :=
  ⟨rfl, rfl, rfl, rfl⟩

/-- C4 (amended): `remove` (used for calls, if- and switch-statements)
drops exactly the block entries pointer-equal (`==`) to the captured
statement, while `Assignment.Remove` and `Assignment.Replace` select by
`reflect.DeepEqual` — full field comparison including positions — against
the captured assignment, affecting every deeply equal entry of the enclosing
function's body (in practice only the captured allocation itself, since
distinct statements of one parse carry distinct positions). -/
theorem C4_remove_replace_matching (pre post pre2 post2 : Chain)
    (l l2 : List Node) (anchor anchor2 newStmt : Node) (fid2 : Nat) (nm2 : String)
    (aLhs aRhs : List Node)
    (hpre : ∀ n ∈ pre, kind n ≠ .block)
    (hpre2 : ∀ n ∈ pre2, kind n ≠ .funcDecl) :
    remove anchor (pre ++ .block l :: post)
      = .updatedBlock (l.filter fun s => !ptrEq s anchor) ∧
    assignmentRemove anchor2 (pre2 ++ .funcDecl fid2 nm2 (.block l2) :: post2)
      = .updatedBlock (l2.filter fun s => !deepEq s anchor2) ∧
    assignmentReplace aLhs aRhs (pre2 ++ .funcDecl fid2 nm2 (.block l2) :: post2) newStmt
      = .updatedBlock (l2.map fun s =>
          match s with
          | .assignStmt i lhs rhs =>
              if deepEqList aLhs lhs && deepEqList aRhs rhs then newStmt
              else .assignStmt i lhs rhs
          | s => s) := by
  have hfind : FindUpstreamNode (pre ++ .block l :: post) .block = some (.block l) :=
    findUpstreamNode_first pre post _ .block hpre rfl
  have hfind2 : FindUpstreamNode (pre2 ++ .funcDecl fid2 nm2 (.block l2) :: post2) .funcDecl
      = some (.funcDecl fid2 nm2 (.block l2)) :=
    findUpstreamNode_first pre2 post2 _ .funcDecl hpre2 rfl
  obtain ⟨c, cs, hcc⟩ : ∃ c cs, pre ++ Node.block l :: post = c :: cs := by
    cases pre with
    | nil => exact ⟨_, _, rfl⟩
    | cons x xs => exact ⟨_, _, rfl⟩
  rw [hcc] at hfind
  refine ⟨?_, ?_, ?_⟩
  · rw [hcc]
    simp only [remove, hfind]
    rw [removeLoop_eq_filter]
  · simp only [assignmentRemove, hfind2]
  · simp only [assignmentReplace, hfind2]
    rw [replaceLoop_eq_map]

/-- Witness for `C4_remove_replace_matching` at concrete inputs. -/
theorem C4_remove_replace_matching_witness :
    remove exDupA ([] ++ .block [exDupA, exDupB] :: [.funcDecl 7 "main" (.block [exDupA, exDupB])])
      = .updatedBlock ([exDupA, exDupB].filter fun s => !ptrEq s exDupA) ∧
    assignmentRemove exAsgA ([] ++ .funcDecl 8 "main" (.block [exAsgA, exAsgB]) :: [])
      = .updatedBlock ([exAsgA, exAsgB].filter fun s => !deepEq s exAsgA) ∧
    assignmentReplace [.ident 10 "x"] [.basicLit 12 ['1']]
        ([] ++ .funcDecl 8 "main" (.block [exAsgA, exAsgB]) :: []) exReplacementStmt
      = .updatedBlock ([exAsgA, exAsgB].map fun s =>
          match s with
          | .assignStmt i lhs rhs =>
              if deepEqList [.ident 10 "x"] lhs && deepEqList [.basicLit 12 ['1']] rhs then
                exReplacementStmt
              else .assignStmt i lhs rhs
          | s => s) :=
  C4_remove_replace_matching [] [.funcDecl 7 "main" (.block [exDupA, exDupB])] [] []
    [exDupA, exDupB] [exAsgA, exAsgB] exDupA exAsgA exReplacementStmt 8 "main"
    [.ident 10 "x"] [.basicLit 12 ['1']]
    (by simp) (by simp)

/-! ## C2/C5: parse failure handling and round-trip stability -/

theorem collapse_cons_exists (a : Char) (l : List Char) :
    ∃ t, collapse (a :: l) = a :: t := by
  induction l generalizing a with
  | nil => exact ⟨[], rfl⟩
  | cons b bs ih =>
      by_cases h : a = ' ' ∧ b = ' '
      · obtain ⟨t, ht⟩ := ih b
        have hc : collapse (a :: b :: bs) = collapse (b :: bs) := by
          simp [collapse, h]
        exact ⟨t, by rw [hc, ht, h.1, h.2]⟩
      · exact ⟨collapse (b :: bs), by simp [collapse, h]⟩

theorem collapse_noDoubleSpace (l : List Char) :
    noDoubleSpace (collapse l) = true := by
  induction l with
  | nil => rfl
  | cons a l ih =>
      cases l with
      | nil => rfl
      | cons b bs =>
          by_cases h : a = ' ' ∧ b = ' '
          · have hc : collapse (a :: b :: bs) = collapse (b :: bs) := by
              simp [collapse, h]
            rw [hc]; exact ih
          · obtain ⟨t, ht⟩ := collapse_cons_exists b bs
            have hc : collapse (a :: b :: bs) = a :: collapse (b :: bs) := by
              simp [collapse, h]
            rw [hc, ht]
            have ih' := ih
            rw [ht] at ih'
            simp [noDoubleSpace, ih', h]

theorem collapse_eq_self (l : List Char) (h : noDoubleSpace l = true) :
    collapse l = l := by
  induction l with
  | nil => rfl
  | cons a l ih =>
      cases l with
      | nil => rfl
      | cons b bs =>
          have h' : (¬a = ' ' ∨ ¬b = ' ') ∧ noDoubleSpace (b :: bs) = true := by
            simpa [noDoubleSpace] using h
          have h1 : ¬(a = ' ' ∧ b = ' ') := fun hab => h'.1.elim (fun hn => hn hab.1) fun hn => hn hab.2
          simp [collapse, h1, ih h'.2]

/-- C2 counterexample: on invalid input `codemod.New` does not report the
parse failure to the caller as an error value — its signature returns only
`*SourceFile` and it escalates the failure with
`panic(errors.WithStack(err))`. -/
theorem C2_counterexample_new_panics : New exInvalidSource = .panicked := rfl

/-- C2 (amended): `New` panics (a recoverable Go panic, not an error return)
exactly when the parser reports an error, and on valid input returns the
complete parsed tree. -/
theorem C2_new_parse_outcomes (text : List Char) :
    (parseAdapter text = .error () → New text = .panicked) ∧
    (∀ tree, parseAdapter text = .ok tree → New text = .ok tree) := by
  constructor
  · intro h; simp [New, h]
  · intro tree h; simp [New, h]

/-- Witness for `C2_new_parse_outcomes`: both implications discharged at
concrete inputs. -/
theorem C2_new_parse_outcomes_witness :
    New exInvalidSource = .panicked ∧ New exValidSource = .ok (collapse exValidSource) :=
  ⟨(C2_new_parse_outcomes exInvalidSource).1 rfl,
   (C2_new_parse_outcomes exValidSource).2 (collapse exValidSource) rfl⟩

/-- C5: printing a parsed file yields text that parses again to the very
same tree — so re-printing that second parse is byte-identical to the first
print — and the printed text is the canonical (whitespace-collapsed) form of
the input.  Parsing and printing are pure functions here; re-serialization
cannot mutate the `SourceFile`. -/
theorem C5_print_parse_roundtrip (text tree : List Char)
    (h : parseAdapter text = .ok tree) :
    parseAdapter (printAdapter tree) = .ok tree ∧ printAdapter tree = collapse text := by
  by_cases hc : List.isPrefixOf "package ".data (collapse text) = true
  · have htree : tree = collapse text := by
      simpa [parseAdapter, hc] using h.symm
    subst htree
    have hfix : collapse (collapse text) = collapse text :=
      collapse_eq_self (collapse text) (collapse_noDoubleSpace text)
    refine ⟨?_, rfl⟩
    simp [parseAdapter, printAdapter, hfix, hc]
  · exact absurd h (by simp [parseAdapter, hc])

/-- Witness for `C5_print_parse_roundtrip`: an input with a double space
normalizes once and is then stable. -/
theorem C5_print_parse_roundtrip_witness :
    parseAdapter (printAdapter ("package a".data)) = .ok ("package a".data) ∧
    printAdapter ("package a".data) = collapse ("package  a".data) :=
  C5_print_parse_roundtrip ("package  a".data) ("package a".data) (by rfl)

/-! ## C6/C10: import-set operations -/

theorem Unquote_Quote (p : GoStr) : Unquote (Quote p) = p := by
  simp [Unquote, Quote]

theorem pathsLoop_cons_ok (s : Node) (rest : List Node) (paths : List GoStr)
    (h : pathsLoop (s :: rest) = .ok paths) :
    ∃ w l, s = .importSpec w ∧ pathsLoop rest = .ok l ∧ paths = Unquote w :: l := by
  cases s
  case importSpec w =>
    cases hr : pathsLoop rest with
    | ok l =>
        refine ⟨w, l, rfl, rfl, ?_⟩
        have h2 := h
        simp [pathsLoop, hr] at h2
        exact h2.symm
    | panicked => simp [pathsLoop, hr] at h
  all_goals simp [pathsLoop] at h

theorem pathsLoop_append_importSpec (specs : List Node) (paths : List GoStr) (v : GoStr)
    (h : pathsLoop specs = .ok paths) :
    pathsLoop (specs ++ [.importSpec v]) = .ok (paths ++ [Unquote v]) := by
  induction specs generalizing paths with
  | nil =>
      have : paths = [] := by simpa [pathsLoop] using h.symm
      subst this
      simp [pathsLoop]
  | cons s rest ih =>
      obtain ⟨w, l, rfl, hrest, rfl⟩ := pathsLoop_cons_ok s rest paths h
      simp [pathsLoop, ih l hrest]

theorem addIter_of_mem (n : Nat) (specs : List Node) (paths : List GoStr) (p : GoStr)
    (h : pathsLoop specs = .ok paths) (hp : p ∈ paths) :
    addIter n specs p = .ok specs := by
  induction n with
  | zero => rfl
  | succ n ih =>
      have : ImportsAdd (some specs) p = .ok specs := by
        simp [ImportsAdd, h, hp]
      simp [addIter, this, ih]

/-- C6: adding an absent import path any positive number of times appends it
exactly once — afterwards the path occurs exactly once in `Paths()` — and a
single `Add` preserves freedom from duplicates. -/
theorem C6_import_add_idempotent (specs : List Node) (paths : List GoStr) (p : GoStr)
    (n : Nat) (h : pathsLoop specs = .ok paths) (hp : p ∉ paths) :
    (addIter (n + 1) specs p = .ok (specs ++ [.importSpec (Quote p)]) ∧
     pathsLoop (specs ++ [.importSpec (Quote p)]) = .ok (paths ++ [p]) ∧
     (paths ++ [p]).count p = 1) ∧
    (paths.Nodup → (paths ++ [p]).Nodup) := by
  have happ : pathsLoop (specs ++ [.importSpec (Quote p)]) = .ok (paths ++ [p]) := by
    have := pathsLoop_append_importSpec specs paths (Quote p) h
    rwa [Unquote_Quote] at this
  have hadd : ImportsAdd (some specs) p = .ok (specs ++ [.importSpec (Quote p)]) := by
    simp [ImportsAdd, h, hp]
  refine ⟨⟨?_, happ, ?_⟩, ?_⟩
  · simp only [addIter, hadd]
    exact addIter_of_mem n _ _ p happ (by simp)
  · rw [List.count_append]
    rw [List.count_eq_zero_of_not_mem hp]
    simp
  · intro hnd
    simp [List.nodup_append, hnd, hp]

/-- Witness for `C6_import_add_idempotent`: adding `"fmt"` three times to
an existing spec list holding only `"errors"`. -/
theorem C6_import_add_idempotent_witness :
    (addIter 3 exSpecs ("fmt".data) = .ok (exSpecs ++ [.importSpec (Quote ("fmt".data))]) ∧
     pathsLoop (exSpecs ++ [.importSpec (Quote ("fmt".data))])
       = .ok (["errors".data] ++ ["fmt".data]) ∧
     (["errors".data] ++ ["fmt".data]).count ("fmt".data) = 1) ∧
    (["errors".data].Nodup → (["errors".data] ++ ["fmt".data]).Nodup) :=
  C6_import_add_idempotent exSpecs ["errors".data] ("fmt".data) 2 (by rfl) (by decide)

mutual

theorem impNode_no_import : ∀ (n : Node) (acc : Option (List Node)),
    hasImportDecl n = false → impNode acc n = acc
  | .file ds, acc, h => by
      simp only [hasImportDecl] at h
      simpa [impNode] using impList_no_import ds acc h
  | .importDecl _, _, h => by simp [hasImportDecl] at h
  | .varDecl ds, acc, h => by
      simp only [hasImportDecl] at h
      simpa [impNode] using impList_no_import ds acc h
  | .importSpec _, _, _ => rfl
  | .funcDecl _ _ body, acc, h => by
      simp only [hasImportDecl] at h
      simpa [impNode] using impNode_no_import body acc h
  | .block l, acc, h => by
      simp only [hasImportDecl] at h
      simpa [impNode] using impList_no_import l acc h
  | .exprStmt _ x, acc, h => by
      simp only [hasImportDecl] at h
      simpa [impNode] using impNode_no_import x acc h
  | .assignStmt _ lhs rhs, acc, h => by
      simp only [hasImportDecl, Bool.or_eq_false_iff] at h
      rw [impNode, impList_no_import lhs acc h.1, impList_no_import rhs acc h.2]
  | .ifStmt _ c b, acc, h => by
      simp only [hasImportDecl, Bool.or_eq_false_iff] at h
      rw [impNode, impNode_no_import c acc h.1, impNode_no_import b acc h.2]
  | .ident _ _, _, _ => rfl
  | .basicLit _ _, _, _ => rfl
  | .call f args, acc, h => by
      simp only [hasImportDecl, Bool.or_eq_false_iff] at h
      rw [impNode, impNode_no_import f acc h.1, impList_no_import args acc h.2]
  | .selector x _, acc, h => by
      simp only [hasImportDecl] at h
      simpa [impNode] using impNode_no_import x acc h
  | .compositeLit none elts, acc, h => by
      simp only [hasImportDecl] at h
      simpa [impNode] using impList_no_import elts acc h
  | .compositeLit (some t) elts, acc, h => by
      simp only [hasImportDecl, Bool.or_eq_false_iff] at h
      rw [impNode, impNode_no_import t acc h.1, impList_no_import elts acc h.2]
  | .mapType k v, acc, h => by
      simp only [hasImportDecl, Bool.or_eq_false_iff] at h
      rw [impNode, impNode_no_import k acc h.1, impNode_no_import v acc h.2]
  | .keyValue k v, acc, h => by
      simp only [hasImportDecl, Bool.or_eq_false_iff] at h
      rw [impNode, impNode_no_import k acc h.1, impNode_no_import v acc h.2]

theorem impList_no_import : ∀ (ns : List Node) (acc : Option (List Node)),
    hasImportDeclList ns = false → impList acc ns = acc
  | [], _, _ => rfl
  | n :: ns, acc, h => by
      simp only [hasImportDeclList, Bool.or_eq_false_iff] at h
      rw [impList, impNode_no_import n acc h.1, impList_no_import ns acc h.2]

end

/-- C10: on a file with no import declaration, `SourceFile.Imports` returns
a handle with a nil spec-list pointer, and `Paths`, `Contains`, `Add` and
`Remove` all dereference that nil pointer and panic. -/
theorem C10_imports_nil_panics (file : Node) (p : GoStr)
    (h : hasImportDecl file = false) :
    SourceFileImports file = none ∧
    ImportsPaths (SourceFileImports file) = .panicked ∧
    ImportsContains (SourceFileImports file) p = .panicked ∧
    ImportsAdd (SourceFileImports file) p = .panicked ∧
    ImportsRemove (SourceFileImports file) p = .panicked := by
  have h0 : SourceFileImports file = none := impNode_no_import file none h
  refine ⟨h0, ?_, ?_, ?_, ?_⟩ <;> rw [h0] <;> rfl

/-- Witness for `C10_imports_nil_panics`. -/
theorem C10_imports_nil_panics_witness :
    SourceFileImports exNoImportFile = none ∧
    ImportsPaths (SourceFileImports exNoImportFile) = .panicked ∧
    ImportsContains (SourceFileImports exNoImportFile) ("fmt".data) = .panicked ∧
    ImportsAdd (SourceFileImports exNoImportFile) ("fmt".data) = .panicked ∧
    ImportsRemove (SourceFileImports exNoImportFile) ("fmt".data) = .panicked :=
  C10_imports_nil_panics exNoImportFile ("fmt".data) (by rfl)

/-! ## C3: FunctionCalls counting and scope assignment -/

theorem scopeAfter_append (sc : Scope) (l₁ l₂ : List Node) :
    scopeAfter sc (l₁ ++ l₂) = scopeAfter (scopeAfter sc l₁) l₂ := by
  induction l₁ generalizing sc with
  | nil => rfl
  | cons n ns ih => cases n <;> simp [scopeAfter, ih]

theorem scanScope_append (sc : Scope) (l₁ l₂ : List Node) :
    scanScope sc (l₁ ++ l₂) = scanScope sc l₁ ++ scanScope (scopeAfter sc l₁) l₂ := by
  induction l₁ generalizing sc with
  | nil => simp [scanScope, scopeAfter]
  | cons n ns ih => cases n <;> simp [scanScope, scopeAfter, ih]

mutual

theorem fcNode_pre : ∀ (n : Node) (s : FCState),
    fcNode s n = ⟨scopeAfter s.scope (preorder n), s.out ++ scanScope s.scope (preorder n)⟩
  | .file ds, s => by
      simp only [fcNode]
      rw [fcList_pre ds]
      simp [preorder, scanScope, scopeAfter]
  | .importDecl ds, s => by
      simp only [fcNode]
      rw [fcList_pre ds]
      simp [preorder, scanScope, scopeAfter]
  | .varDecl ds, s => by
      simp only [fcNode]
      rw [fcList_pre ds]
      simp [preorder, scanScope, scopeAfter]
  | .importSpec p, s => by
      simp [fcNode, preorder, scanScope, scopeAfter]
  | .funcDecl fid nm b, s => by
      simp only [fcNode]
      rw [fcNode_pre b]
      simp [preorder, scanScope, scopeAfter]
  | .block l, s => by
      simp only [fcNode]
      rw [fcList_pre l]
      simp [preorder, scanScope, scopeAfter]
  | .exprStmt i x, s => by
      simp only [fcNode]
      rw [fcNode_pre x]
      simp [preorder, scanScope, scopeAfter]
  | .assignStmt i lhs rhs, s => by
      simp only [fcNode]
      rw [fcList_pre lhs, fcList_pre rhs]
      simp [preorder, scanScope, scopeAfter, scanScope_append, scopeAfter_append,
        List.append_assoc]
  | .ifStmt i c b, s => by
      simp only [fcNode]
      rw [fcNode_pre c, fcNode_pre b]
      simp [preorder, scanScope, scopeAfter, scanScope_append, scopeAfter_append,
        List.append_assoc]
  | .ident p nm, s => by
      simp [fcNode, preorder, scanScope, scopeAfter]
  | .basicLit p v, s => by
      simp [fcNode, preorder, scanScope, scopeAfter]
  | .call f args, s => by
      simp only [fcNode]
      rw [fcNode_pre f, fcList_pre args]
      simp [preorder, scanScope, scopeAfter, scanScope_append, scopeAfter_append,
        List.append_assoc]
  | .selector x sel, s => by
      simp only [fcNode]
      rw [fcNode_pre x]
      simp [preorder, scanScope, scopeAfter]
  | .compositeLit none elts, s => by
      simp only [fcNode]
      rw [fcList_pre elts]
      simp [preorder, scanScope, scopeAfter]
  | .compositeLit (some t) elts, s => by
      simp only [fcNode]
      rw [fcNode_pre t, fcList_pre elts]
      simp [preorder, scanScope, scopeAfter, scanScope_append, scopeAfter_append,
        List.append_assoc]
  | .mapType k v, s => by
      simp only [fcNode]
      rw [fcNode_pre k, fcNode_pre v]
      simp [preorder, scanScope, scopeAfter, scanScope_append, scopeAfter_append,
        List.append_assoc]
  | .keyValue k v, s => by
      simp only [fcNode]
      rw [fcNode_pre k, fcNode_pre v]
      simp [preorder, scanScope, scopeAfter, scanScope_append, scopeAfter_append,
        List.append_assoc]

theorem fcList_pre : ∀ (ns : List Node) (s : FCState),
    fcList s ns = ⟨scopeAfter s.scope (preorderList ns), s.out ++ scanScope s.scope (preorderList ns)⟩
  | [], s => by simp [fcList, preorderList, scanScope, scopeAfter]
  | n :: ns, s => by
      simp only [fcList]
      rw [fcNode_pre n, fcList_pre ns]
      simp [preorderList, scanScope_append, scopeAfter_append, List.append_assoc]

end

theorem scanScope_length (sc : Scope) (l : List Node) :
    (scanScope sc l).length = (l.filter isCall).length := by
  induction l generalizing sc with
  | nil => rfl
  | cons n ns ih => cases n <;> simp [scanScope, isCall, ih]

/-- C3 counterexample: `g()` lies outside every function declaration, yet
`FunctionCalls` assigns it the scope of the earlier declaration `f` (scope is
never reset on leaving a declaration) instead of "no scope". -/
theorem C3_counterexample_top_level_scope :
    callsOutsideFunctions exC3File = [exTopCall] ∧
    FunctionCalls exC3File = [(some 1, exTopCall)] :=
  ⟨rfl, rfl⟩

/-- C3 (amended): `FunctionCalls` returns one match per call expression of
the file (K calls yield K matches), and each match is tagged with the most
recent function declaration in *preorder traversal order* — calls inside a
function F are scoped to F and calls before any declaration have no scope,
but top-level calls appearing after a declaration inherit that declaration's
scope. -/
theorem C3_function_calls_spec (file : Node) :
    (FunctionCalls file).length = ((preorder file).filter isCall).length ∧
    FunctionCalls file = scanScope none (preorder file) := by
  have h := fcNode_pre file ⟨none, []⟩
  constructor
  · rw [FunctionCalls, h]
    simp [scanScope_length]
  · rw [FunctionCalls, h]
    simp

/-! ## C8: map-literal query misses vs. failures -/

mutual

theorem fmNode_ok : ∀ (n : Node) (kf vf : String) (s : FMState),
    compositesOk n = true → ∃ s', fmNode kf vf s n = .ok s'
  | .file ds, kf, vf, s, h => by
      simp only [compositesOk] at h
      obtain ⟨s', hs'⟩ := fmList_ok ds kf vf s h
      exact ⟨s', by simp [fmNode, hs']⟩
  | .importDecl ds, kf, vf, s, h => by
      simp only [compositesOk] at h
      obtain ⟨s', hs'⟩ := fmList_ok ds kf vf s h
      exact ⟨s', by simp [fmNode, hs']⟩
  | .varDecl ds, kf, vf, s, h => by
      simp only [compositesOk] at h
      obtain ⟨s', hs'⟩ := fmList_ok ds kf vf s h
      exact ⟨s', by simp [fmNode, hs']⟩
  | .importSpec p, _, _, s, _ => ⟨s, rfl⟩
  | .funcDecl fid nm body, kf, vf, s, h => by
      simp only [compositesOk] at h
      obtain ⟨s', hs'⟩ := fmNode_ok body kf vf { s with scope := some fid } h
      exact ⟨s', by simp [fmNode, hs']⟩
  | .block l, kf, vf, s, h => by
      simp only [compositesOk] at h
      obtain ⟨s', hs'⟩ := fmList_ok l kf vf s h
      exact ⟨s', by simp [fmNode, hs']⟩
  | .exprStmt i x, kf, vf, s, h => by
      simp only [compositesOk] at h
      obtain ⟨s', hs'⟩ := fmNode_ok x kf vf s h
      exact ⟨s', by simp [fmNode, hs']⟩
  | .assignStmt i lhs rhs, kf, vf, s, h => by
      simp only [compositesOk, Bool.and_eq_true] at h
      obtain ⟨s1, h1⟩ := fmList_ok lhs kf vf s h.1
      obtain ⟨s2, h2⟩ := fmList_ok rhs kf vf s1 h.2
      exact ⟨s2, by simp [fmNode, h1, h2]⟩
  | .ifStmt i c b, kf, vf, s, h => by
      simp only [compositesOk, Bool.and_eq_true] at h
      obtain ⟨s1, h1⟩ := fmNode_ok c kf vf s h.1
      obtain ⟨s2, h2⟩ := fmNode_ok b kf vf s1 h.2
      exact ⟨s2, by simp [fmNode, h1, h2]⟩
  | .ident p nm, _, _, s, _ => ⟨s, rfl⟩
  | .basicLit p w, _, _, s, _ => ⟨s, rfl⟩
  | .call f args, kf, vf, s, h => by
      simp only [compositesOk, Bool.and_eq_true] at h
      obtain ⟨s1, h1⟩ := fmNode_ok f kf vf s h.1
      obtain ⟨s2, h2⟩ := fmList_ok args kf vf s1 h.2
      exact ⟨s2, by simp [fmNode, h1, h2]⟩
  | .selector x sel, kf, vf, s, h => by
      simp only [compositesOk] at h
      obtain ⟨s', hs'⟩ := fmNode_ok x kf vf s h
      exact ⟨s', by simp [fmNode, hs']⟩
  | .compositeLit none elts, kf, vf, s, h => by
      simp [compositesOk] at h
  | .compositeLit (some t) elts, kf, vf, s, h => by
      cases t
      case mapType tk tv =>
        cases tk
        case ident kp kn =>
          cases tv
          case ident vp vn =>
            have helts : compositesOkList elts = true := by
              simpa [compositesOk] using h
            simp only [fmNode]
            split
            · exact fmList_ok elts kf vf _ helts
            · exact fmList_ok elts kf vf _ helts
          all_goals simp [compositesOk] at h
        all_goals simp [compositesOk] at h
      all_goals simp [compositesOk] at h
  | .mapType k v, kf, vf, s, h => by
      simp only [compositesOk, Bool.and_eq_true] at h
      obtain ⟨s1, h1⟩ := fmNode_ok k kf vf s h.1
      obtain ⟨s2, h2⟩ := fmNode_ok v kf vf s1 h.2
      exact ⟨s2, by simp [fmNode, h1, h2]⟩
  | .keyValue k v, kf, vf, s, h => by
      simp only [compositesOk, Bool.and_eq_true] at h
      obtain ⟨s1, h1⟩ := fmNode_ok k kf vf s h.1
      obtain ⟨s2, h2⟩ := fmNode_ok v kf vf s1 h.2
      exact ⟨s2, by simp [fmNode, h1, h2]⟩

theorem fmList_ok : ∀ (ns : List Node) (kf vf : String) (s : FMState),
    compositesOkList ns = true → ∃ s', fmList kf vf s ns = .ok s'
  | [], _, _, s, _ => ⟨s, rfl⟩
  | n :: ns, kf, vf, s, h => by
      simp only [compositesOkList, Bool.and_eq_true] at h
      obtain ⟨s1, h1⟩ := fmNode_ok n kf vf s h.1
      obtain ⟨s2, h2⟩ := fmList_ok ns kf vf s1 h.2
      exact ⟨s2, by simp [fmList, h1, h2]⟩

end

mutual

theorem fmNode_noMatch : ∀ (n : Node) (kf vf : String) (s : FMState),
    compositesOk n = true → noMapMatch kf vf n = true →
    ∃ sc', fmNode kf vf s n = .ok ⟨sc', s.out⟩
  | .file ds, kf, vf, s, h, hm => by
      simp only [compositesOk] at h
      simp only [noMapMatch] at hm
      obtain ⟨sc', hs'⟩ := fmList_noMatch ds kf vf s h hm
      exact ⟨sc', by simp [fmNode, hs']⟩
  | .importDecl ds, kf, vf, s, h, hm => by
      simp only [compositesOk] at h
      simp only [noMapMatch] at hm
      obtain ⟨sc', hs'⟩ := fmList_noMatch ds kf vf s h hm
      exact ⟨sc', by simp [fmNode, hs']⟩
  | .varDecl ds, kf, vf, s, h, hm => by
      simp only [compositesOk] at h
      simp only [noMapMatch] at hm
      obtain ⟨sc', hs'⟩ := fmList_noMatch ds kf vf s h hm
      exact ⟨sc', by simp [fmNode, hs']⟩
  | .importSpec p, _, _, s, _, _ => ⟨s.scope, rfl⟩
  | .funcDecl fid nm body, kf, vf, s, h, hm => by
      simp only [compositesOk] at h
      simp only [noMapMatch] at hm
      obtain ⟨sc', hs'⟩ := fmNode_noMatch body kf vf { s with scope := some fid } h hm
      exact ⟨sc', by simp [fmNode, hs']⟩
  | .block l, kf, vf, s, h, hm => by
      simp only [compositesOk] at h
      simp only [noMapMatch] at hm
      obtain ⟨sc', hs'⟩ := fmList_noMatch l kf vf s h hm
      exact ⟨sc', by simp [fmNode, hs']⟩
  | .exprStmt i x, kf, vf, s, h, hm => by
      simp only [compositesOk] at h
      simp only [noMapMatch] at hm
      obtain ⟨sc', hs'⟩ := fmNode_noMatch x kf vf s h hm
      exact ⟨sc', by simp [fmNode, hs']⟩
  | .assignStmt i lhs rhs, kf, vf, s, h, hm => by
      simp only [compositesOk, Bool.and_eq_true] at h
      simp only [noMapMatch, Bool.and_eq_true] at hm
      obtain ⟨sc1, h1⟩ := fmList_noMatch lhs kf vf s h.1 hm.1
      obtain ⟨sc2, h2⟩ := fmList_noMatch rhs kf vf ⟨sc1, s.out⟩ h.2 hm.2
      exact ⟨sc2, by simp [fmNode, h1, h2]⟩
  | .ifStmt i c b, kf, vf, s, h, hm => by
      simp only [compositesOk, Bool.and_eq_true] at h
      simp only [noMapMatch, Bool.and_eq_true] at hm
      obtain ⟨sc1, h1⟩ := fmNode_noMatch c kf vf s h.1 hm.1
      obtain ⟨sc2, h2⟩ := fmNode_noMatch b kf vf ⟨sc1, s.out⟩ h.2 hm.2
      exact ⟨sc2, by simp [fmNode, h1, h2]⟩
  | .ident p nm, _, _, s, _, _ => ⟨s.scope, rfl⟩
  | .basicLit p w, _, _, s, _, _ => ⟨s.scope, rfl⟩
  | .call f args, kf, vf, s, h, hm => by
      simp only [compositesOk, Bool.and_eq_true] at h
      simp only [noMapMatch, Bool.and_eq_true] at hm
      obtain ⟨sc1, h1⟩ := fmNode_noMatch f kf vf s h.1 hm.1
      obtain ⟨sc2, h2⟩ := fmList_noMatch args kf vf ⟨sc1, s.out⟩ h.2 hm.2
      exact ⟨sc2, by simp [fmNode, h1, h2]⟩
  | .selector x sel, kf, vf, s, h, hm => by
      simp only [compositesOk] at h
      simp only [noMapMatch] at hm
      obtain ⟨sc', hs'⟩ := fmNode_noMatch x kf vf s h hm
      exact ⟨sc', by simp [fmNode, hs']⟩
  | .compositeLit none elts, kf, vf, s, h, hm => by
      simp [compositesOk] at h
  | .compositeLit (some t) elts, kf, vf, s, h, hm => by
      cases t
      case mapType tk tv =>
        cases tk
        case ident kp kn =>
          cases tv
          case ident vp vn =>
            have helts : compositesOkList elts = true := by
              simpa [compositesOk] using h
            have hm' : (¬kn = kf ∨ ¬vn = vf) ∧ noMapMatchList kf vf elts = true := by
              simpa [noMapMatch] using hm
            have hne : ¬(kn = kf ∧ vn = vf) :=
              fun hab => hm'.1.elim (fun hn => hn hab.1) fun hn => hn hab.2
            obtain ⟨sc', hs'⟩ := fmList_noMatch elts kf vf s helts hm'.2
            refine ⟨sc', ?_⟩
            simp only [fmNode, if_neg hne]
            exact hs'
          all_goals simp [compositesOk] at h
        all_goals simp [compositesOk] at h
      all_goals simp [compositesOk] at h
  | .mapType k v, kf, vf, s, h, hm => by
      simp only [compositesOk, Bool.and_eq_true] at h
      simp only [noMapMatch, Bool.and_eq_true] at hm
      obtain ⟨sc1, h1⟩ := fmNode_noMatch k kf vf s h.1 hm.1
      obtain ⟨sc2, h2⟩ := fmNode_noMatch v kf vf ⟨sc1, s.out⟩ h.2 hm.2
      exact ⟨sc2, by simp [fmNode, h1, h2]⟩
  | .keyValue k v, kf, vf, s, h, hm => by
      simp only [compositesOk, Bool.and_eq_true] at h
      simp only [noMapMatch, Bool.and_eq_true] at hm
      obtain ⟨sc1, h1⟩ := fmNode_noMatch k kf vf s h.1 hm.1
      obtain ⟨sc2, h2⟩ := fmNode_noMatch v kf vf ⟨sc1, s.out⟩ h.2 hm.2
      exact ⟨sc2, by simp [fmNode, h1, h2]⟩

theorem fmList_noMatch : ∀ (ns : List Node) (kf vf : String) (s : FMState),
    compositesOkList ns = true → noMapMatchList kf vf ns = true →
    ∃ sc', fmList kf vf s ns = .ok ⟨sc', s.out⟩
  | [], _, _, s, _, _ => ⟨s.scope, rfl⟩
  | n :: ns, kf, vf, s, h, hm => by
      simp only [compositesOkList, Bool.and_eq_true] at h
      simp only [noMapMatchList, Bool.and_eq_true] at hm
      obtain ⟨sc1, h1⟩ := fmNode_noMatch n kf vf s h.1 hm.1
      obtain ⟨sc2, h2⟩ := fmList_noMatch ns kf vf ⟨sc1, s.out⟩ h.2 hm.2
      exact ⟨sc2, by simp [fmList, h1, h2]⟩

end

/-- C8 counterexample: a query miss is *not* always failure-free — on a file
containing a struct literal, `FindMapLiterals` panics on the unchecked
`value.Type.(*ast.MapType)` assertion instead of returning an empty
mapping. -/
theorem C8_counterexample_struct_literal_panics :
    FindMapLiterals "string" "string" exC8File = .panicked := rfl

/-- C8 (amended): when every composite literal of the file is an
identifier-keyed, identifier-valued map literal, `FindMapLiterals` never
fails, and when additionally none matches the filter it returns the empty
mapping; on any other composite literal (struct literals, maps with
non-identifier key/value types) it panics. -/
theorem C8_map_query_no_failure (kf vf : String) (file : Node)
    (h : compositesOk file = true) :
    (∃ l, FindMapLiterals kf vf file = .ok l) ∧
    (noMapMatch kf vf file = true → FindMapLiterals kf vf file = .ok []) := by
  constructor
  · obtain ⟨s', hs'⟩ := fmNode_ok file kf vf ⟨none, []⟩ h
    exact ⟨s'.out, by simp [FindMapLiterals, hs']⟩
  · intro hnm
    obtain ⟨sc', hs'⟩ := fmNode_noMatch file kf vf ⟨none, []⟩ h hnm
    simp [FindMapLiterals, hs']

/-- Witness for `C8_map_query_no_failure`: a `map[string]string` query over
a file holding only a `map[string]int` literal misses without failing. -/
theorem C8_map_query_no_failure_witness :
    (∃ l, FindMapLiterals "string" "string" exC8OkFile = .ok l) ∧
    FindMapLiterals "string" "string" exC8OkFile = .ok [] :=
  ⟨(C8_map_query_no_failure "string" "string" exC8OkFile (by rfl)).1,
   (C8_map_query_no_failure "string" "string" exC8OkFile (by rfl)).2 (by rfl)⟩

/-! ## C9: completeness of position stripping -/

mutual

theorem zeroPos_le : ∀ (v : RVal) (x : Nat),
    (zeroPositionInformation x v).1 ≤ x + rsize v
  | .pos n, x => by
      by_cases h1 : isZero (RVal.pos n) = true
      · simp [zeroPositionInformation, h1]
      · by_cases h2 : x > 1000 <;> simp [zeroPositionInformation, h1, h2, rsize]
  | .intVal n, x => by
      by_cases h1 : isZero (RVal.intVal n) = true
      · simp [zeroPositionInformation, h1]
      · by_cases h2 : x > 1000 <;> simp [zeroPositionInformation, h1, h2, rsize]
  | .strVal str, x => by
      by_cases h1 : isZero (RVal.strVal str) = true
      · simp [zeroPositionInformation, h1]
      · by_cases h2 : x > 1000 <;> simp [zeroPositionInformation, h1, h2, rsize]
  | .structV fields, x => by
      by_cases h1 : isZero (RVal.structV fields) = true
      · simp [zeroPositionInformation, h1]
      · by_cases h2 : x > 1000
        · simp [zeroPositionInformation, h1, h2]
        · have hrec := zeroPosList_le fields (x + 1)
          simp only [zeroPositionInformation, if_neg h1, if_neg h2]
          simp only [rsize]
          omega
  | .ptrV none, x => by
      by_cases h1 : isZero (RVal.ptrV none) = true
      · simp [zeroPositionInformation, h1]
      · by_cases h2 : x > 1000 <;> simp [zeroPositionInformation, h1, h2, rsize]
  | .ptrV (some inner), x => by
      by_cases h1 : isZero (RVal.ptrV (some inner)) = true
      · simp [zeroPositionInformation, h1]
      · by_cases h2 : x > 1000
        · simp [zeroPositionInformation, h1, h2]
        · have hrec := zeroPos_le inner (x + 1)
          simp only [zeroPositionInformation, if_neg h1, if_neg h2]
          simp only [rsize]
          omega
  | .sliceV elems, x => by
      by_cases h1 : isZero (RVal.sliceV elems) = true
      · simp [zeroPositionInformation, h1]
      · by_cases h2 : x > 1000
        · simp [zeroPositionInformation, h1, h2]
        · have hrec := zeroPosList_le elems (x + 1)
          simp only [zeroPositionInformation, if_neg h1, if_neg h2]
          simp only [rsize]
          omega

theorem zeroPosList_le : ∀ (vs : List RVal) (x : Nat),
    (zeroPositionInformationList x vs).1 ≤ x + rsizeList vs
  | [], x => by simp [zeroPositionInformationList, rsizeList]
  | v :: vs, x => by
      have h1 := zeroPos_le v x
      have h2 := zeroPosList_le vs (zeroPositionInformation x v).1
      simp only [zeroPositionInformationList, rsizeList]
      omega

end

mutual

theorem isZero_posFree : ∀ (v : RVal), isZero v = true → posFree v = true
  | .pos n, h => by simpa [isZero, posFree] using h
  | .intVal n, _ => rfl
  | .strVal str, _ => rfl
  | .structV fields, h => by
      simp only [isZero] at h
      simpa [posFree] using isZeroList_posFree fields h
  | .ptrV none, _ => rfl
  | .ptrV (some inner), h => by simp [isZero] at h
  | .sliceV elems, h => by simp [isZero] at h

theorem isZeroList_posFree : ∀ (vs : List RVal), isZeroList vs = true → posFreeList vs = true
  | [], _ => rfl
  | v :: vs, h => by
      simp only [isZeroList, Bool.and_eq_true] at h
      simp [posFreeList, isZero_posFree v h.1, isZeroList_posFree vs h.2]

end

mutual

theorem zeroPos_posFree : ∀ (v : RVal) (x : Nat), x + rsize v ≤ 1001 →
    posFree (zeroPositionInformation x v).2 = true
  | .pos n, x, h => by
      by_cases h1 : isZero (RVal.pos n) = true
      · simpa [zeroPositionInformation, h1] using isZero_posFree _ h1
      · have h2 : ¬x > 1000 := by simp only [rsize] at h; omega
        simp [zeroPositionInformation, h1, h2, posFree]
  | .intVal n, x, h => by
      by_cases h1 : isZero (RVal.intVal n) = true
      · simpa [zeroPositionInformation, h1] using isZero_posFree _ h1
      · have h2 : ¬x > 1000 := by simp only [rsize] at h; omega
        simp [zeroPositionInformation, h1, h2, posFree]
  | .strVal str, x, h => by
      by_cases h1 : isZero (RVal.strVal str) = true
      · simpa [zeroPositionInformation, h1] using isZero_posFree _ h1
      · have h2 : ¬x > 1000 := by simp only [rsize] at h; omega
        simp [zeroPositionInformation, h1, h2, posFree]
  | .structV fields, x, h => by
      by_cases h1 : isZero (RVal.structV fields) = true
      · simpa [zeroPositionInformation, h1] using isZero_posFree _ h1
      · have h2 : ¬x > 1000 := by simp only [rsize] at h; omega
        have hrec := zeroPosList_posFree fields (x + 1)
          (by simp only [rsize] at h; omega)
        simp only [zeroPositionInformation, if_neg h1, if_neg h2]
        simpa [posFree] using hrec
  | .ptrV none, x, h => by
      by_cases h1 : isZero (RVal.ptrV none) = true
      · simpa [zeroPositionInformation, h1] using isZero_posFree _ h1
      · have h2 : ¬x > 1000 := by simp only [rsize] at h; omega
        simp [zeroPositionInformation, h1, h2, posFree]
  | .ptrV (some inner), x, h => by
      by_cases h1 : isZero (RVal.ptrV (some inner)) = true
      · simpa [zeroPositionInformation, h1] using isZero_posFree _ h1
      · have h2 : ¬x > 1000 := by simp only [rsize] at h; omega
        have hrec := zeroPos_posFree inner (x + 1)
          (by simp only [rsize] at h; omega)
        simp only [zeroPositionInformation, if_neg h1, if_neg h2]
        simpa [posFree] using hrec
  | .sliceV elems, x, h => by
      by_cases h1 : isZero (RVal.sliceV elems) = true
      · simpa [zeroPositionInformation, h1] using isZero_posFree _ h1
      · have h2 : ¬x > 1000 := by simp only [rsize] at h; omega
        have hrec := zeroPosList_posFree elems (x + 1)
          (by simp only [rsize] at h; omega)
        simp only [zeroPositionInformation, if_neg h1, if_neg h2]
        simpa [posFree] using hrec

theorem zeroPosList_posFree : ∀ (vs : List RVal) (x : Nat), x + rsizeList vs ≤ 1001 →
    posFreeList (zeroPositionInformationList x vs).2 = true
  | [], _, _ => rfl
  | v :: vs, x, h => by
      have hle := zeroPos_le v x
      have hv := zeroPos_posFree v x (by simp only [rsizeList] at h; omega)
      have hvs := zeroPosList_posFree vs (zeroPositionInformation x v).1
        (by simp only [rsizeList] at h; omega)
      simp only [zeroPositionInformationList]
      simp [posFreeList, hv, hvs]

end

/-- C9 counterexample: once the process-global counter has passed 1000
(after enough fragments have been parsed in the same process),
`zeroPositionInformation` returns the fragment's reflection value untouched
— its position fields are *not* stripped, contradicting the claim that
stripping is complete regardless of how many fragments were parsed
before. -/
theorem C9_counterexample_counter_exhausted :
    zeroPositionInformation 1001 (toRVal exFragmentStmt) = (1001, toRVal exFragmentStmt) ∧
    posFree (toRVal exFragmentStmt) = false :=
  ⟨rfl, rfl⟩

/-- C9 (amended): stripping is complete only while the global counter budget
lasts — if the counter `x` plus the number of values in the fragment's
reflection tree stays within the 1001 cap, every position field of the
result is zeroed. -/
theorem C9_strip_complete_within_budget (x : Nat) (v : RVal)
    (h : x + rsize v ≤ 1001) :
    posFree (zeroPositionInformation x v).2 = true :=
  zeroPos_posFree v x h

/-- Witness for `C9_strip_complete_within_budget`: the first fragment of a
fresh process (counter at its initial value 1) is fully stripped. -/
theorem C9_strip_complete_within_budget_witness :
    1 + rsize (toRVal exFragmentStmt) ≤ 1001 ∧
    posFree (zeroPositionInformation 1 (toRVal exFragmentStmt)).2 = true :=
  ⟨by decide, C9_strip_complete_within_budget 1 (toRVal exFragmentStmt) (by decide)⟩

end ApplyCodemod
